import Mathlib

/-!
A verification development for the crontab rule parser and next-occurrence
engine.  Go slices are modelled as lists, machine integers as `Int`/`Nat`
(every value handled is small enough that no overflow can occur), string
splitting as structural splitting of the character list, errors and panics as
`Except` values, and the engine's unbounded search loop as recursion on an
explicit budget (`fuelExhausted` marks budget exhaustion, i.e. the cut-off of a
loop that the program would keep running, not a program outcome).
-/

set_option maxRecDepth 16384

namespace Crontab

/-- The six cron field kinds (the source's `cType` constants). -/
inductive cType
  | second
  | minute
  | hour
  | day
  | week
  | month
deriving DecidableEq

/-- `Cron.getMaxBetween`: the legal domain of each field. -/
def getMaxBetween : cType → Int × Int
  | .second => (0, 59)
  | .minute => (0, 59)
  | .hour => (0, 23)
  | .day => (1, 31)
  | .week => (0, 6)
  | .month => (1, 12)

/-- Sizes of the boolean scratch slices allocated in `Cron.parseRules`
(60, 60, 24, 32, 7 and 13 entries). -/
def scratchSize : cType → Nat
  | .second => 60
  | .minute => 60
  | .hour => 24
  | .day => 32
  | .week => 7
  | .month => 13

/-- Structured error outcomes.  Each constructor corresponds to one error site
of the source: the six-field format panic of `parseRules`, the `errorStr`
message, a `strconv.Atoi` failure, `errorStrRange` for a value, `errorStrRange`
for an interval, `errorStrCompare`, the `errorNull` panic of `validMonthDay`,
and the `errorNullYear` panic of `isTrueNextTime`.  `fuelExhausted` is a
modelling artifact only (see the module comment). -/
inductive CronError
  | malformedRule
  | ruleError
  | notInt
  | valueOutOfRange
  | invalidStep
  | rangeReversed
  | unsatisfiableRule
  | noFeasibleOccurrence
  | fuelExhausted
deriving DecidableEq

/-- Splitting of a character list at every occurrence of `sep`
(`strings.Split` for a one-character separator). -/
def splitListOn (sep : Char) : List Char → List (List Char)
  | [] => [[]]
  | c :: rest =>
    let r := splitListOn sep rest
    if c = sep then [] :: r
    else
      match r with
      | [] => [[c]]
      | g :: gs => (c :: g) :: gs

/-- `strings.Split(s, sep)` for the one-character separators the source uses. -/
def splitStr (sep : Char) (s : String) : List String :=
  (splitListOn sep s.toList).map fun l => String.mk l

/-- Digit accumulation of `strconv.Atoi` (base 10). -/
def digitsVal (acc : Nat) : List Char → Option Nat
  | [] => some acc
  | c :: rest => if c.isDigit then digitsVal (acc * 10 + (c.toNat - 48)) rest else none

/-- `strconv.Atoi`: an optional sign followed by at least one digit. -/
def atoi (s : String) : Option Int :=
  match s.toList with
  | [] => none
  | '+' :: rest => if rest = [] then none else (digitsVal 0 rest).map fun n => (n : Int)
  | '-' :: rest => if rest = [] then none else (digitsVal 0 rest).map fun n => -(n : Int)
  | l => (digitsVal 0 l).map fun n => (n : Int)

/-- `parseInt`: `strconv.Atoi` with the error wrapped. -/
def parseIntM (s : String) : Except CronError Int :=
  match atoi s with
  | some i => .ok i
  | none => .error .notInt

/-- `Cron.validNum`. -/
def validNum (n : Int) (ct : cType) (isInterval : Bool) : Except CronError Unit :=
  let mn := (getMaxBetween ct).1
  let mx := (getMaxBetween ct).2
  if isInterval ∧ (n < 1 ∨ n > mx + 1) then .error .invalidStep
  else if ¬ isInterval ∧ (n < mn ∨ n > mx) then .error .valueOutOfRange
  else .ok ()

/-- Marking one slice position (`runList[i] = true`; every write in the source
is to an index already validated to be in bounds). -/
def setTrue (rl : List Bool) (i : Nat) : List Bool :=
  rl.set i true

/-- The loop of `Cron.getTimes` (`for i := start; i <= end; i += interval`),
recursing on an explicit budget so that the definition is structural.  The
budget `e + 1 - s` suffices because every caller passes `1 ≤ iv`. -/
def getTimesAux (e iv : Nat) : Nat → Nat → List Bool → List Bool
  | 0, _, rl => rl
  | fuel + 1, s, rl => if s ≤ e then getTimesAux e iv fuel (s + iv) (setTrue rl s) else rl

/-- `Cron.getTimes`. -/
def getTimes (s e iv : Nat) (rl : List Bool) : List Bool :=
  getTimesAux e iv (e + 1 - s) s rl

/-- The marking a successful atom performs on the scratch slice: a stepped
inclusive range (`getTimes`) or a single position write. -/
inductive Upd
  | rangeU (s e iv : Nat)
  | singleU (n : Nat)

/-- Perform a marking. -/
def applyUpd : Upd → List Bool → List Bool
  | .rangeU s e iv, rl => getTimes s e iv rl
  | .singleU n, rl => setTrue rl n

/-- One atom of `Cron.parseSingle`'s comma loop: all the branch's string
analysis and validation, returning the marking it ends with (the marking
itself — the branch's final `getTimes` call or single write — is performed by
`applyAtom` below). -/
def atomUpd (r : String) (ct : cType) : Except CronError Upd :=
  if (splitStr '/' r).length ≥ 2 then
    -- strings.Contains(r, "/"): the every-interval form
    let rList := splitStr '/' r
    if rList.length ≠ 2 then .error .ruleError
    else
      match parseIntM (rList.getD 1 "") with
      | .error e => .error e
      | .ok interval =>
        match validNum interval ct true with
        | .error e => .error e
        | .ok _ =>
          let se : Except CronError (Int × Int) :=
            if rList.getD 0 "" ≠ "*" then
              let charList := splitStr '-' (rList.getD 0 "")
              if charList.length > 2 then .error .ruleError
              else
                match parseIntM (charList.getD 0 "") with
                | .error e => .error e
                | .ok start1 =>
                  match validNum start1 ct false with
                  | .error e => .error e
                  | .ok _ =>
                    if charList.length = 2 then
                      match parseIntM (charList.getD 1 "") with
                      | .error e => .error e
                      | .ok end1 =>
                        match validNum end1 ct false with
                        | .error e => .error e
                        | .ok _ => .ok (start1, end1)
                    else .ok (start1, (getMaxBetween ct).2)
            else .ok (getMaxBetween ct)
          match se with
          | .error e => .error e
          | .ok (start1, end1) =>
            if start1 > end1 then .error .rangeReversed
            else .ok (.rangeU start1.toNat end1.toNat interval.toNat)
  else if (splitStr '-' r).length ≥ 2 then
    -- strings.Contains(r, "-"): the between form, step 1
    let rList := splitStr '-' r
    if rList.length ≠ 2 then .error .ruleError
    else
      match parseIntM (rList.getD 0 "") with
      | .error e => .error e
      | .ok start1 =>
        match validNum start1 ct false with
        | .error e => .error e
        | .ok _ =>
          match parseIntM (rList.getD 1 "") with
          | .error e => .error e
          | .ok end1 =>
            match validNum end1 ct false with
            | .error e => .error e
            | .ok _ =>
              if start1 > end1 then .error .rangeReversed
              else .ok (.rangeU start1.toNat end1.toNat 1)
  else
    if r = "*" then
      .ok (.rangeU (getMaxBetween ct).1.toNat (getMaxBetween ct).2.toNat 1)
    else
      match parseIntM r with
      | .error e => .error e
      | .ok charNum =>
        match validNum charNum ct false with
        | .error e => .error e
        | .ok _ => .ok (.singleU charNum.toNat)

/-- The body of `Cron.parseSingle`'s comma loop for one atom `r`: validate,
then mark the shared scratch slice. -/
def applyAtom (r : String) (ct : cType) (runList : List Bool) :
    Except CronError (List Bool) :=
  match atomUpd r ct with
  | .error e => .error e
  | .ok u => .ok (applyUpd u runList)

/-- The comma loop of `Cron.parseSingle`, threading the shared scratch slice. -/
def parseSingleAux (ct : cType) : List String → List Bool → Except CronError (List Bool)
  | [], rl => .ok rl
  | r :: rest, rl =>
    match applyAtom r ct rl with
    | .error e => .error e
    | .ok rl2 => parseSingleAux ct rest rl2

/-- The collection loop of `Cron.parseSingle`
(`for k, v := range runList { if v { rs = append(rs, k) } }`). -/
def collectTrue (rl : List Bool) : List Nat :=
  (List.range rl.length).filter fun k => rl.getD k false

/-- `Cron.parseSingle`. -/
def parseSingle (rule : String) (ct : cType) (runList : List Bool) :
    Except CronError (List Nat) :=
  match parseSingleAux ct (splitStr ',' rule) runList with
  | .error e => .error e
  | .ok rl => .ok (collectTrue rl)

/-- The parser's output: the six ordered candidate-value slices. -/
structure ParsedRule where
  seconds : List Nat
  minutes : List Nat
  hours : List Nat
  days : List Nat
  weeks : List Nat
  months : List Nat
deriving DecidableEq

/-- `Cron.parseRules`. -/
def parseRules (rules : String) : Except CronError ParsedRule :=
  let ruleList := splitStr ' ' rules
  if ruleList.length ≠ 6 then .error .malformedRule
  else
    match parseSingle (ruleList.getD 0 "") .second (List.replicate (scratchSize .second) false) with
    | .error e => .error e
    | .ok seconds =>
    match parseSingle (ruleList.getD 1 "") .minute (List.replicate (scratchSize .minute) false) with
    | .error e => .error e
    | .ok minutes =>
    match parseSingle (ruleList.getD 2 "") .hour (List.replicate (scratchSize .hour) false) with
    | .error e => .error e
    | .ok hours =>
    match parseSingle (ruleList.getD 3 "") .day (List.replicate (scratchSize .day) false) with
    | .error e => .error e
    | .ok days =>
    match parseSingle (ruleList.getD 4 "") .week (List.replicate (scratchSize .week) false) with
    | .error e => .error e
    | .ok weeks =>
    match parseSingle (ruleList.getD 5 "") .month (List.replicate (scratchSize .month) false) with
    | .error e => .error e
    | .ok months => .ok ⟨seconds, minutes, hours, days, weeks, months⟩

/-- `Cron.validMonthDay`: the month/day feasibility check run once after
parsing (`errorNull` panic modelled as `unsatisfiableRule`). -/
def validMonthDay (p : ParsedRule) : Except CronError Unit :=
  let dmax := p.days.getD (p.days.length - 1) 0
  let isExists := p.months.any fun v =>
    if v = 1 ∨ v = 3 ∨ v = 5 ∨ v = 7 ∨ v = 8 ∨ v = 10 ∨ v = 12 then true
    else if v = 2 then decide (dmax ≤ 29)
    else decide (dmax ≤ 30)
  if isExists then .ok () else .error .unsatisfiableRule

/-- Gregorian leap-year rule (as in Go's `time` package). -/
def isLeap (y : Int) : Bool :=
  decide (y % 4 = 0 ∧ (y % 100 ≠ 0 ∨ y % 400 = 0))

/-- Length of month `m` of year `y` (months 1–12). -/
def daysInMonth (y : Int) (m : Nat) : Nat :=
  if m = 2 then (if isLeap y then 29 else 28)
  else if m = 4 ∨ m = 6 ∨ m = 9 ∨ m = 11 then 30
  else 31

/-- The calendar normalization Go's `time.Date` performs on the arguments the
engine ever passes it: month in [1,12], day in [1,31] and in-domain
hour/minute/second, so only the day can overflow its month, by at most three
days, spilling into the following month (or January of the next year). -/
def normDate (y : Int) (m d : Nat) : Int × Nat × Nat :=
  if d ≤ daysInMonth y m then (y, m, d)
  else if m = 12 then (y + 1, 1, d - daysInMonth y m)
  else (y, m + 1, d - daysInMonth y m)

/-- Days since 1970-01-01 of a Gregorian civil date (months 1–12). -/
def daysFromCivil (y : Int) (m d : Nat) : Int :=
  let yy : Int := if m ≤ 2 then y - 1 else y
  let era : Int := Int.fdiv yy 400
  let yoe : Int := yy - era * 400
  let mp : Int := ((m : Int) + 9) % 12
  let doy : Int := Int.fdiv (153 * mp + 2) 5 + (d : Int) - 1
  let doe : Int := yoe * 365 + Int.fdiv yoe 4 - Int.fdiv yoe 100 + doy
  era * 146097 + doe - 719468

/-- Weekday of a civil date with Go's convention `0 = Sunday`
(1970-01-01 was a Thursday, weekday 4). -/
def weekday (y : Int) (m d : Nat) : Nat :=
  ((daysFromCivil y m d + 4) % 7).toNat

/-- `isInArray`. -/
def isInArray (v : Nat) : List Nat → Bool
  | [] => false
  | i :: rest => if v = i then true else isInArray v rest

/-- The scan of `inSliceByRun`: index of the first element that equals `v` or
exceeds `v` (the source tests `slice[i] == v` and `slice[i] > v` separately). -/
def findGeIdx (v : Nat) : List Nat → Option Nat
  | [] => none
  | x :: rest => if x = v then some 0 else if x > v then some 0
                 else (findGeIdx v rest).map fun i => i + 1

/-- `inSliceByRun`: the scan above, defaulting to index 0 when every element is
smaller than `v`. -/
def inSliceByRun (v : Nat) (slice : List Nat) : Nat :=
  (findGeIdx v slice).getD 0

/-- A wall-clock instant by components (local time, zero nanoseconds). -/
structure Instant where
  year : Int
  month : Nat
  day : Nat
  hour : Nat
  minute : Nat
  second : Nat
deriving DecidableEq

/-- Engine configuration: the real current year (`time.Now().Year()`) and the
package-global `maxYearLen` horizon. -/
structure Cfg where
  nowYear : Int
  maxYearLen : Int
deriving DecidableEq

/-- The cursor: `timesIdx` positions 0, 1, 2, 3 and 5 plus the running year
(position 4, the week, has no index). -/
structure St where
  year : Int
  i0 : Nat
  i1 : Nat
  i2 : Nat
  i3 : Nat
  i5 : Nat
deriving DecidableEq

/-- `Cron.getNextTime`: materialize the cursor through `time.Date`. -/
def matInstant (p : ParsedRule) (st : St) : Instant :=
  let m := p.months.getD st.i5 0
  let d := p.days.getD st.i3 0
  let n := normDate st.year m d
  ⟨n.1, n.2.1, n.2.2, p.hours.getD st.i2 0, p.minutes.getD st.i1 0, p.seconds.getD st.i0 0⟩

/-- `Cron.isTrueNextTime`.  The `error` outcome is the `errorNullYear` panic.
The hour/minute/second components never influence the composed date because
their parsed values are in domain, so only year, month and day appear here. -/
def isTrueNextTime (cfg : Cfg) (p : ParsedRule) (st : St) : Except CronError Bool :=
  let m := p.months.getD st.i5 0
  let d := p.days.getD st.i3 0
  let n := normDate st.year m d
  if cfg.maxYearLen ≠ -1 ∧ cfg.nowYear + 1 + cfg.maxYearLen ≤ n.1 then
    .error .noFeasibleOccurrence
  else if n.1 ≠ st.year ∨ n.2.2 ≠ d then .ok false
  else if ¬ isInArray (weekday n.1 n.2.1 n.2.2) p.weeks then .ok false
  else .ok true

/-- First phase of `Cron.nextTime`: one odometer roll over indices 0, 1, 2, 3
and 5 (the week position is skipped) with a year carry on full wrap-around. -/
def step1 (p : ParsedRule) (st : St) : St :=
  let i0 := (st.i0 + 1) % p.seconds.length
  if i0 ≠ 0 then { st with i0 := i0 } else
  let i1 := (st.i1 + 1) % p.minutes.length
  if i1 ≠ 0 then { st with i0 := i0, i1 := i1 } else
  let i2 := (st.i2 + 1) % p.hours.length
  if i2 ≠ 0 then { st with i0 := i0, i1 := i1, i2 := i2 } else
  let i3 := (st.i3 + 1) % p.days.length
  if i3 ≠ 0 then { st with i0 := i0, i1 := i1, i2 := i2, i3 := i3 } else
  let i5 := (st.i5 + 1) % p.months.length
  if i5 ≠ 0 then { st with i0 := i0, i1 := i1, i2 := i2, i3 := i3, i5 := i5 } else
  { st with i0 := i0, i1 := i1, i2 := i2, i3 := i3, i5 := i5, year := st.year + 1 }

/-- One roll of the escalation loop in `Cron.nextTime`: indices 3 and 5 (week
skipped) with a year carry. -/
def rollCoarse (p : ParsedRule) (st : St) : St :=
  let i3 := (st.i3 + 1) % p.days.length
  if i3 ≠ 0 then { st with i3 := i3 } else
  let i5 := (st.i5 + 1) % p.months.length
  if i5 ≠ 0 then { st with i3 := i3, i5 := i5 } else
  { st with i3 := i3, i5 := i5, year := st.year + 1 }

/-- The unbounded `for` escalation loop of `Cron.nextTime`, recursing on an
explicit budget. -/
def nextTimeLoop (cfg : Cfg) (p : ParsedRule) : Nat → St → Except CronError St
  | 0, _ => .error .fuelExhausted
  | fuel + 1, st =>
    let st2 := rollCoarse p st
    match isTrueNextTime cfg p st2 with
    | .error e => .error e
    | .ok true => .ok st2
    | .ok false => nextTimeLoop cfg p fuel st2

/-- `Cron.nextTime`: one full roll, then on an invalid candidate zero the
second/minute/hour indices and escalate over day/month/year. -/
def nextTimeE (cfg : Cfg) (p : ParsedRule) (fuel : Nat) (st : St) :
    Except CronError St :=
  let st1 := step1 p st
  match isTrueNextTime cfg p st1 with
  | .error e => .error e
  | .ok true => .ok st1
  | .ok false => nextTimeLoop cfg p fuel { st1 with i0 := 0, i1 := 0, i2 := 0 }

/-- The index-seeding pass of `Cron.init` (everything before its final
`isTrueNextTime`/`nextTime` step).  The reference instant stands for
`time.Now()`. -/
def initCursor (p : ParsedRule) (now : Instant) : St :=
  -- second
  let i0 := inSliceByRun now.second p.seconds
  let isNext := decide (p.seconds.getD i0 0 < now.second)
  -- minute
  let i1 := inSliceByRun now.minute p.minutes
  let i1 := if isNext then (i1 + 1) % p.minutes.length else i1
  let isNext := decide (p.minutes.getD i1 0 < now.minute)
  let i0 := if p.minutes.getD i1 0 ≠ now.minute then 0 else i0
  -- hour
  let i2 := inSliceByRun now.hour p.hours
  let i2 := if isNext then (i2 + 1) % p.hours.length else i2
  let isNext := decide (p.hours.getD i2 0 < now.hour)
  let i0 := if p.hours.getD i2 0 ≠ now.hour then 0 else i0
  let i1 := if p.hours.getD i2 0 ≠ now.hour then 0 else i1
  -- day
  let i3 := inSliceByRun now.day p.days
  let i3 := if isNext then (i3 + 1) % p.days.length else i3
  let isNext := decide (p.days.getD i3 0 < now.day)
  let i0 := if p.days.getD i3 0 ≠ now.day then 0 else i0
  let i1 := if p.days.getD i3 0 ≠ now.day then 0 else i1
  let i2 := if p.days.getD i3 0 ≠ now.day then 0 else i2
  -- month
  let i5 := inSliceByRun now.month p.months
  let i5 := if isNext then (i5 + 1) % p.months.length else i5
  let isNext := decide (p.months.getD i5 0 < now.month)
  let i0 := if p.months.getD i5 0 ≠ now.month then 0 else i0
  let i1 := if p.months.getD i5 0 ≠ now.month then 0 else i1
  let i2 := if p.months.getD i5 0 ≠ now.month then 0 else i2
  let i3 := if p.months.getD i5 0 ≠ now.month then 0 else i3
  -- year
  if isNext then ⟨now.year + 1, 0, 0, 0, 0, 0⟩
  else ⟨now.year, i0, i1, i2, i3, i5⟩

/-- `Cron.init`: seed the cursor from the reference instant, then fall through
to `nextTime` when the seeded candidate is not valid. -/
def initE (cfg : Cfg) (p : ParsedRule) (now : Instant) (fuel : Nat) :
    Except CronError St :=
  let st := initCursor p now
  match isTrueNextTime cfg p st with
  | .error e => .error e
  | .ok true => .ok st
  | .ok false => nextTimeE cfg p fuel st

/-! Specification-side notions used to state the claims. -/

/-- Strictly ascending list. -/
abbrev SortedLt (l : List Nat) : Prop := l.Pairwise (· < ·)

/-- What `parseSingle` guarantees for every field slice: non-empty, strictly
ascending, and inside the field's domain. -/
abbrev WFRule (p : ParsedRule) : Prop :=
  (p.seconds ≠ [] ∧ SortedLt p.seconds ∧ ∀ v ∈ p.seconds, v ≤ 59) ∧
  (p.minutes ≠ [] ∧ SortedLt p.minutes ∧ ∀ v ∈ p.minutes, v ≤ 59) ∧
  (p.hours ≠ [] ∧ SortedLt p.hours ∧ ∀ v ∈ p.hours, v ≤ 23) ∧
  (p.days ≠ [] ∧ SortedLt p.days ∧ ∀ v ∈ p.days, 1 ≤ v ∧ v ≤ 31) ∧
  (p.weeks ≠ [] ∧ SortedLt p.weeks ∧ ∀ v ∈ p.weeks, v ≤ 6) ∧
  (p.months ≠ [] ∧ SortedLt p.months ∧ ∀ v ∈ p.months, 1 ≤ v ∧ v ≤ 12)

/-- Cursor indices in bounds. -/
abbrev IdxOK (p : ParsedRule) (st : St) : Prop :=
  st.i0 < p.seconds.length ∧ st.i1 < p.minutes.length ∧ st.i2 < p.hours.length ∧
  st.i3 < p.days.length ∧ st.i5 < p.months.length

/-- Chronological key of the coarse cursor components (year, month, day). -/
def coarseKey (p : ParsedRule) (st : St) : Int :=
  (st.year * 13 + (p.months.getD st.i5 0 : Int)) * 32 + (p.days.getD st.i3 0 : Int)

/-- Chronological key of the fine cursor components (hour, minute, second). -/
def fineKey (p : ParsedRule) (st : St) : Int :=
  ((p.hours.getD st.i2 0 : Int) * 60 + (p.minutes.getD st.i1 0 : Int)) * 60 +
    (p.seconds.getD st.i0 0 : Int)

/-- Chronological key of the whole cursor. -/
def stKey (p : ParsedRule) (st : St) : Int :=
  coarseKey p st * 86400 + fineKey p st

/-- Chronological key of an instant: strictly monotone in time on instants with
in-domain components. -/
def instantKey (i : Instant) : Int :=
  ((((i.year * 13 + (i.month : Int)) * 32 + (i.day : Int)) * 24 + (i.hour : Int)) * 60 +
      (i.minute : Int)) * 60 + (i.second : Int)

/-- An instant that satisfies all six field constraints of a rule and is a real
calendar date. -/
abbrev LegalInstant (p : ParsedRule) (i : Instant) : Prop :=
  i.second ∈ p.seconds ∧ i.minute ∈ p.minutes ∧ i.hour ∈ p.hours ∧
  i.day ∈ p.days ∧ i.month ∈ p.months ∧
  weekday i.year i.month i.day ∈ p.weeks ∧
  1 ≤ i.day ∧ i.day ≤ daysInMonth i.year i.month

/-- Whether month `m` can host a day-of-month as large as `dmax`: February up
to 29 with slack, April/June/September/November up to 30, the remaining months
up to 31 (the feasibility notion of the specification). -/
def canHost (m dmax : Nat) : Prop :=
  (m = 2 ∧ dmax ≤ 29) ∨
  ((m = 4 ∨ m = 6 ∨ m = 9 ∨ m = 11) ∧ dmax ≤ 30) ∨
  ((m = 1 ∨ m = 3 ∨ m = 5 ∨ m = 7 ∨ m = 8 ∨ m = 10 ∨ m = 12) ∧ dmax ≤ 31)

/-- Positions marked in a scratch slice. -/
def marks (rl : List Bool) (i : Nat) : Prop :=
  rl.getD i false = true

/-- The set of positions a marking action marks (ignoring slice bounds). -/
def UpdMarks : Upd → Nat → Prop
  | .rangeU s e iv, i => s ≤ i ∧ i ≤ e ∧ (i - s) % iv = 0
  | .singleU n, i => i = n

/-- Static well-formedness of a marking action for a field: positive step and
endpoints inside the field's domain. -/
def GoodUpd (ct : cType) : Upd → Prop
  | .rangeU s e iv =>
      0 < iv ∧ s ≤ e ∧ (getMaxBetween ct).1.toNat ≤ s ∧ e ≤ (getMaxBetween ct).2.toNat
  | .singleU n => (getMaxBetween ct).1.toNat ≤ n ∧ n ≤ (getMaxBetween ct).2.toNat

/-! Concrete parsed rules used by the closed instances below (each equals the
output of `parseRules` on the quoted rule string, as the instance theorems
verify). -/

/-- Every value of the hour domain. -/
def hoursAll : List Nat :=
  [0, 1, 2, 3, 4, 5, 6, 7, 8, 9, 10, 11, 12, 13, 14, 15, 16, 17, 18, 19, 20, 21, 22, 23]

/-- Every value of the day-of-month domain. -/
def daysAll : List Nat :=
  [1, 2, 3, 4, 5, 6, 7, 8, 9, 10, 11, 12, 13, 14, 15, 16, 17, 18, 19, 20, 21, 22, 23,
   24, 25, 26, 27, 28, 29, 30, 31]

/-- Every value of the day-of-week domain. -/
def weeksAll : List Nat := [0, 1, 2, 3, 4, 5, 6]

/-- Every value of the month domain. -/
def monthsAll : List Nat := [1, 2, 3, 4, 5, 6, 7, 8, 9, 10, 11, 12]

/-- The parse of "0 0 0 * * *" (midnight every day). -/
def pMidnight : ParsedRule := ⟨[0], [0], [0], daysAll, weeksAll, monthsAll⟩

/-- The parse of "0 0 0 * 1 *" (midnight every Monday). -/
def pMonday : ParsedRule := ⟨[0], [0], [0], daysAll, [1], monthsAll⟩

/-- The parse of "0 0 0 1 * 1" (midnight every January 1st). -/
def pJanFirst : ParsedRule := ⟨[0], [0], [0], [1], weeksAll, [1]⟩

/-- A rule whose day-of-month 30 overflows February. -/
def pFeb30 : ParsedRule := ⟨[0], [0], [0], [30], weeksAll, [2]⟩

/-- The parse of "30 10,50 * * * *". -/
def pThirty : ParsedRule := ⟨[30], [10, 50], hoursAll, daysAll, weeksAll, monthsAll⟩

/-- The parse of "0 0 0 31 * 2" (the 31st of February). -/
def pFeb31 : ParsedRule := ⟨[0], [0], [0], [31], weeksAll, [2]⟩

/-! Basic helper lemmas. -/

theorem getD_mem (l : List Nat) (i : Nat) (h : i < l.length) : l.getD i 0 ∈ l := by
  induction l generalizing i with
  | nil => simp at h
  | cons x xs ih =>
    cases i with
    | zero => simp [List.getD]
    | succ n =>
      have hn : n < xs.length := by simpa using h
      have := ih n hn
      simpa [List.getD] using Or.inr this

theorem sorted_getD_lt (l : List Nat) (hs : SortedLt l) (i j : Nat) (hij : i < j)
    (hj : j < l.length) : l.getD i 0 < l.getD j 0 := by
  have hi : i < l.length := lt_trans hij hj
  have h1 : l.getD i 0 = l.get ⟨i, hi⟩ := by
    simp [List.getD, List.getElem?_eq_getElem hi, List.get_eq_getElem]
  have h2 : l.getD j 0 = l.get ⟨j, hj⟩ := by
    simp [List.getD, List.getElem?_eq_getElem hj, List.get_eq_getElem]
  rw [h1, h2]
  exact List.pairwise_iff_get.mp hs ⟨i, hi⟩ ⟨j, hj⟩ hij

theorem isInArray_iff (v : Nat) (l : List Nat) : isInArray v l = true ↔ v ∈ l := by
  induction l with
  | nil => simp [isInArray]
  | cons x xs ih =>
    unfold isInArray
    by_cases hvx : v = x
    · simp [hvx]
    · simp [hvx, ih]

theorem findGeIdx_lt (v : Nat) (l : List Nat) (i : Nat) (h : findGeIdx v l = some i) :
    i < l.length := by
  induction l generalizing i with
  | nil => simp [findGeIdx] at h
  | cons x xs ih =>
    unfold findGeIdx at h
    split at h
    · cases h; simp
    · split at h
      · cases h; simp
      · cases hx : findGeIdx v xs with
        | none => rw [hx] at h; simp at h
        | some j =>
          rw [hx] at h
          simp at h
          have := ih j hx
          simp [← h]
          omega

theorem inSliceByRun_lt (v : Nat) (l : List Nat) (hne : l ≠ []) :
    inSliceByRun v l < l.length := by
  unfold inSliceByRun
  cases hx : findGeIdx v l with
  | none =>
    simp [Option.getD]
    exact List.length_pos.mpr hne
  | some j => simpa [Option.getD] using findGeIdx_lt v l j hx

theorem bump_ne_zero (i n : Nat) (hi : i < n) (h : (i + 1) % n ≠ 0) :
    (i + 1) % n = i + 1 ∧ i + 1 < n := by
  rcases Nat.lt_or_ge (i + 1) n with hlt | hge
  · exact ⟨Nat.mod_eq_of_lt hlt, hlt⟩
  · have he : i + 1 = n := by omega
    rw [he, Nat.mod_self] at h
    exact absurd rfl h

theorem mod_bump_lt (i n : Nat) (hn : 0 < n) : (i + 1) % n < n :=
  Nat.mod_lt _ hn

theorem daysInMonth_ge (y : Int) (m : Nat) : 28 ≤ daysInMonth y m := by
  unfold daysInMonth
  split
  · split <;> omega
  · split <;> omega

theorem daysInMonth_le (y : Int) (m : Nat) : daysInMonth y m ≤ 31 := by
  unfold daysInMonth
  split
  · split <;> omega
  · split <;> omega

theorem validNum_true_ok_iff (n : Int) (ct : cType) :
    validNum n ct true = .ok () ↔ (1 ≤ n ∧ n ≤ (getMaxBetween ct).2 + 1) := by
  simp only [validNum]
  by_cases h1 : n < 1 ∨ n > (getMaxBetween ct).2 + 1
  · rw [if_pos (by exact ⟨trivial, h1⟩)]
    constructor
    · intro h; exact absurd h (by simp)
    · intro h; omega
  · rw [if_neg (by intro hc; exact h1 hc.2), if_neg (by simp)]
    constructor
    · intro _; omega
    · intro _; rfl

theorem validNum_interval_err_iff (n : Int) (ct : cType) :
    validNum n ct true = .error .invalidStep ↔
      (n < 1 ∨ n > (getMaxBetween ct).2 + 1) := by
  simp only [validNum]
  by_cases h1 : n < 1 ∨ n > (getMaxBetween ct).2 + 1
  · rw [if_pos (by exact ⟨trivial, h1⟩)]
    simp [h1]
  · rw [if_neg (by intro hc; exact h1 hc.2), if_neg (by simp)]
    simp [h1]

theorem validNum_false_ok_iff (n : Int) (ct : cType) :
    validNum n ct false = .ok () ↔
      ((getMaxBetween ct).1 ≤ n ∧ n ≤ (getMaxBetween ct).2) := by
  simp only [validNum]
  rw [if_neg (by simp)]
  by_cases h1 : n < (getMaxBetween ct).1 ∨ n > (getMaxBetween ct).2
  · rw [if_pos (by exact ⟨by simp, h1⟩)]
    constructor
    · intro h; exact absurd h (by simp)
    · intro h; omega
  · rw [if_neg (by intro hc; exact h1 hc.2)]
    constructor
    · intro _; omega
    · intro _; rfl

theorem validNum_value_err_iff (n : Int) (ct : cType) :
    validNum n ct false = .error .valueOutOfRange ↔
      (n < (getMaxBetween ct).1 ∨ n > (getMaxBetween ct).2) := by
  simp only [validNum]
  rw [if_neg (by simp)]
  by_cases h1 : n < (getMaxBetween ct).1 ∨ n > (getMaxBetween ct).2
  · rw [if_pos (by exact ⟨by simp, h1⟩)]
    simp [h1]
  · rw [if_neg (by intro hc; exact h1 hc.2)]
    simp [h1]

theorem ite_lt {c : Prop} [Decidable c] {a b n : Nat} (ha : a < n) (hb : b < n) :
    (if c then a else b) < n := by
  split
  · exact ha
  · exact hb

theorem idxok_ite (p : ParsedRule) {c : Prop} [Decidable c] {s t : St}
    (hs : IdxOK p s) (ht : IdxOK p t) : IdxOK p (if c then s else t) := by
  split
  · exact hs
  · exact ht

/-! Lemmas about candidate validation and materialization. -/

theorem isTrue_ok_parts (cfg : Cfg) (p : ParsedRule) (st : St)
    (h : isTrueNextTime cfg p st = .ok true) :
    normDate st.year (p.months.getD st.i5 0) (p.days.getD st.i3 0) =
      (st.year, p.months.getD st.i5 0, p.days.getD st.i3 0) ∧
    weekday st.year (p.months.getD st.i5 0) (p.days.getD st.i3 0) ∈ p.weeks := by
  simp only [isTrueNextTime] at h
  split at h
  · exact absurd h (by simp)
  · split at h
    · exact absurd h (by simp)
    · rename_i hyd
      split at h
      · exact absurd h (by simp)
      · rename_i hwk
        push_neg at hyd
        obtain ⟨hy, hd2⟩ := hyd
        have hge := daysInMonth_ge st.year (p.months.getD st.i5 0)
        have hnorm : normDate st.year (p.months.getD st.i5 0) (p.days.getD st.i3 0) =
            (st.year, p.months.getD st.i5 0, p.days.getD st.i3 0) := by
          by_cases hd : p.days.getD st.i3 0 ≤ daysInMonth st.year (p.months.getD st.i5 0)
          · unfold normDate
            rw [if_pos hd]
          · exfalso
            unfold normDate at hy hd2
            rw [if_neg hd] at hy hd2
            by_cases hm : p.months.getD st.i5 0 = 12
            · rw [if_pos hm] at hy
              have h1' : st.year + 1 = st.year := hy
              omega
            · rw [if_neg hm] at hd2
              have h2' : p.days.getD st.i3 0 - daysInMonth st.year (p.months.getD st.i5 0) =
                  p.days.getD st.i3 0 := hd2
              omega
        refine ⟨hnorm, ?_⟩
        rw [not_not] at hwk
        rw [hnorm] at hwk
        exact (isInArray_iff _ _).mp hwk

theorem normDate_ne_of_overflow (y : Int) (m d : Nat)
    (hd : daysInMonth y m < d) : normDate y m d ≠ (y, m, d) := by
  unfold normDate
  rw [if_neg (by omega)]
  by_cases hm : m = 12
  · rw [if_pos hm]
    intro hc
    have h1 : y + 1 = y := congrArg Prod.fst hc
    omega
  · rw [if_neg hm]
    intro hc
    have h1 : m + 1 = m := congrArg (fun q => q.2.1) hc
    omega

theorem isTrue_congr (cfg : Cfg) (p : ParsedRule) (s t : St)
    (hy : s.year = t.year) (h3 : s.i3 = t.i3) (h5 : s.i5 = t.i5) :
    isTrueNextTime cfg p s = isTrueNextTime cfg p t := by
  simp only [isTrueNextTime, hy, h3, h5]

theorem mat_eq_of_true (cfg : Cfg) (p : ParsedRule) (st : St)
    (h : isTrueNextTime cfg p st = .ok true) :
    matInstant p st = ⟨st.year, p.months.getD st.i5 0, p.days.getD st.i3 0,
      p.hours.getD st.i2 0, p.minutes.getD st.i1 0, p.seconds.getD st.i0 0⟩ := by
  have hn := (isTrue_ok_parts cfg p st h).1
  simp only [matInstant, hn]

theorem instantKey_mat (cfg : Cfg) (p : ParsedRule) (st : St)
    (h : isTrueNextTime cfg p st = .ok true) :
    instantKey (matInstant p st) = stKey p st := by
  rw [mat_eq_of_true cfg p st h]
  simp only [instantKey, stKey, coarseKey, fineKey]
  ring

theorem wf_bounds (p : ParsedRule) (st : St) (hwf : WFRule p) (hidx : IdxOK p st) :
    p.seconds.getD st.i0 0 ≤ 59 ∧ p.minutes.getD st.i1 0 ≤ 59 ∧
    p.hours.getD st.i2 0 ≤ 23 ∧
    (1 ≤ p.days.getD st.i3 0 ∧ p.days.getD st.i3 0 ≤ 31) ∧
    (1 ≤ p.months.getD st.i5 0 ∧ p.months.getD st.i5 0 ≤ 12) := by
  obtain ⟨hs, hm, hh, hd, _, hmo⟩ := hwf
  obtain ⟨h0, h1, h2, h3, h5⟩ := hidx
  exact ⟨hs.2.2 _ (getD_mem _ _ h0), hm.2.2 _ (getD_mem _ _ h1),
    hh.2.2 _ (getD_mem _ _ h2), hd.2.2 _ (getD_mem _ _ h3), hmo.2.2 _ (getD_mem _ _ h5)⟩

theorem fineKey_bounds (p : ParsedRule) (st : St) (hwf : WFRule p) (hidx : IdxOK p st) :
    0 ≤ fineKey p st ∧ fineKey p st < 86400 := by
  obtain ⟨b0, b1, b2, _, _⟩ := wf_bounds p st hwf hidx
  simp only [fineKey]
  omega

/-! The odometer lemmas behind the advance operation. -/

theorem step1_cases (p : ParsedRule) (st : St) (hwf : WFRule p) (hidx : IdxOK p st) :
    ((step1 p st).year = st.year ∧ (step1 p st).i3 = st.i3 ∧ (step1 p st).i5 = st.i5 ∧
       fineKey p st < fineKey p (step1 p st) ∨
     coarseKey p st < coarseKey p (step1 p st)) ∧ IdxOK p (step1 p st) := by
  obtain ⟨h0, h1, h2, h3, h5⟩ := hidx
  have L0 : 0 < p.seconds.length := by omega
  have L1 : 0 < p.minutes.length := by omega
  have L2 : 0 < p.hours.length := by omega
  have L3 : 0 < p.days.length := by omega
  have L5 : 0 < p.months.length := by omega
  obtain ⟨b0, b1, b2, b3, b5⟩ := wf_bounds p st hwf ⟨h0, h1, h2, h3, h5⟩
  obtain ⟨⟨_, ssort, _⟩, ⟨_, msort, _⟩, ⟨_, hsort, _⟩, ⟨_, dsort, _⟩, _,
    ⟨_, mosort, _⟩⟩ := hwf
  simp only [step1]
  split
  · rename_i hs0
    obtain ⟨he, hlt⟩ := bump_ne_zero _ _ h0 hs0
    have hv := sorted_getD_lt p.seconds ssort st.i0 (st.i0 + 1) (by omega) hlt
    refine ⟨Or.inl ⟨rfl, rfl, rfl, ?_⟩, ⟨mod_bump_lt _ _ L0, h1, h2, h3, h5⟩⟩
    simp only [fineKey]
    rw [he]
    omega
  · split
    · rename_i hs1
      obtain ⟨he, hlt⟩ := bump_ne_zero _ _ h1 hs1
      have hv := sorted_getD_lt p.minutes msort st.i1 (st.i1 + 1) (by omega) hlt
      refine ⟨Or.inl ⟨rfl, rfl, rfl, ?_⟩,
        ⟨mod_bump_lt _ _ L0, mod_bump_lt _ _ L1, h2, h3, h5⟩⟩
      simp only [fineKey]
      rw [he]
      omega
    · split
      · rename_i hs2
        obtain ⟨he, hlt⟩ := bump_ne_zero _ _ h2 hs2
        have hv := sorted_getD_lt p.hours hsort st.i2 (st.i2 + 1) (by omega) hlt
        refine ⟨Or.inl ⟨rfl, rfl, rfl, ?_⟩,
          ⟨mod_bump_lt _ _ L0, mod_bump_lt _ _ L1, mod_bump_lt _ _ L2, h3, h5⟩⟩
        simp only [fineKey]
        rw [he]
        omega
      · split
        · rename_i hs3
          obtain ⟨he, hlt⟩ := bump_ne_zero _ _ h3 hs3
          have hv := sorted_getD_lt p.days dsort st.i3 (st.i3 + 1) (by omega) hlt
          refine ⟨Or.inr ?_,
            ⟨mod_bump_lt _ _ L0, mod_bump_lt _ _ L1, mod_bump_lt _ _ L2,
              mod_bump_lt _ _ L3, h5⟩⟩
          simp only [coarseKey]
          rw [he]
          omega
        · split
          · rename_i hs5
            obtain ⟨he, hlt⟩ := bump_ne_zero _ _ h5 hs5
            have hv := sorted_getD_lt p.months mosort st.i5 (st.i5 + 1) (by omega) hlt
            refine ⟨Or.inr ?_,
              ⟨mod_bump_lt _ _ L0, mod_bump_lt _ _ L1, mod_bump_lt _ _ L2,
                mod_bump_lt _ _ L3, mod_bump_lt _ _ L5⟩⟩
            simp only [coarseKey]
            rw [he]
            omega
          · refine ⟨Or.inr ?_,
              ⟨mod_bump_lt _ _ L0, mod_bump_lt _ _ L1, mod_bump_lt _ _ L2,
                mod_bump_lt _ _ L3, mod_bump_lt _ _ L5⟩⟩
            simp only [coarseKey]
            omega

theorem rollCoarse_spec (p : ParsedRule) (st : St) (hwf : WFRule p) (hidx : IdxOK p st) :
    coarseKey p st < coarseKey p (rollCoarse p st) ∧ IdxOK p (rollCoarse p st) ∧
    (rollCoarse p st).i0 = st.i0 ∧ (rollCoarse p st).i1 = st.i1 ∧
    (rollCoarse p st).i2 = st.i2 := by
  obtain ⟨h0, h1, h2, h3, h5⟩ := hidx
  have L3 : 0 < p.days.length := by omega
  have L5 : 0 < p.months.length := by omega
  obtain ⟨b0, b1, b2, b3, b5⟩ := wf_bounds p st hwf ⟨h0, h1, h2, h3, h5⟩
  obtain ⟨_, _, _, ⟨_, dsort, _⟩, _, ⟨_, mosort, _⟩⟩ := hwf
  simp only [rollCoarse]
  split
  · rename_i hs3
    obtain ⟨he, hlt⟩ := bump_ne_zero _ _ h3 hs3
    have hv := sorted_getD_lt p.days dsort st.i3 (st.i3 + 1) (by omega) hlt
    refine ⟨?_, ⟨h0, h1, h2, mod_bump_lt _ _ L3, h5⟩, rfl, rfl, rfl⟩
    simp only [coarseKey]
    rw [he]
    omega
  · split
    · rename_i hs5
      obtain ⟨he, hlt⟩ := bump_ne_zero _ _ h5 hs5
      have hv := sorted_getD_lt p.months mosort st.i5 (st.i5 + 1) (by omega) hlt
      refine ⟨?_, ⟨h0, h1, h2, mod_bump_lt _ _ L3, mod_bump_lt _ _ L5⟩, rfl, rfl, rfl⟩
      simp only [coarseKey]
      rw [he]
      omega
    · refine ⟨?_, ⟨h0, h1, h2, mod_bump_lt _ _ L3, mod_bump_lt _ _ L5⟩, rfl, rfl, rfl⟩
      simp only [coarseKey]
      omega

theorem nextTimeLoop_sound (cfg : Cfg) (p : ParsedRule) (hwf : WFRule p) :
    ∀ (fuel : Nat) (st st' : St), IdxOK p st → nextTimeLoop cfg p fuel st = .ok st' →
      coarseKey p st < coarseKey p st' ∧ IdxOK p st' ∧
      isTrueNextTime cfg p st' = .ok true ∧
      st'.i0 = st.i0 ∧ st'.i1 = st.i1 ∧ st'.i2 = st.i2 := by
  intro fuel
  induction fuel with
  | zero =>
    intro st st' _ h
    exact absurd h (by simp [nextTimeLoop])
  | succ n ih =>
    intro st st' hidx h
    obtain ⟨hc, hidx2, hf0, hf1, hf2⟩ := rollCoarse_spec p st hwf hidx
    simp only [nextTimeLoop] at h
    split at h
    · exact absurd h (by simp)
    · rename_i htrue
      injection h with h2
      subst h2
      exact ⟨hc, hidx2, htrue, hf0, hf1, hf2⟩
    · rename_i hfalse
      obtain ⟨hc2, hidx3, htrue2, g0, g1, g2⟩ := ih (rollCoarse p st) st' hidx2 h
      exact ⟨lt_trans hc hc2, hidx3, htrue2, by rw [g0, hf0], by rw [g1, hf1],
        by rw [g2, hf2]⟩

theorem nextTimeE_ok (cfg : Cfg) (p : ParsedRule) (fuel : Nat) (st st' : St)
    (hwf : WFRule p) (hidx : IdxOK p st)
    (h : nextTimeE cfg p fuel st = .ok st') :
    isTrueNextTime cfg p st' = .ok true ∧ IdxOK p st' := by
  have hstep := (step1_cases p st hwf hidx).2
  obtain ⟨h0, h1, h2, h3, h5⟩ := hidx
  simp only [nextTimeE] at h
  split at h
  · exact absurd h (by simp)
  · rename_i htrue
    injection h with h2'
    subst h2'
    exact ⟨htrue, hstep⟩
  · rename_i hfalse
    obtain ⟨a0, a1, a2, a3, a5⟩ := hstep
    have hidx2 : IdxOK p { step1 p st with i0 := 0, i1 := 0, i2 := 0 } :=
      ⟨by show 0 < p.seconds.length; omega, by show 0 < p.minutes.length; omega,
        by show 0 < p.hours.length; omega, a3, a5⟩
    have hr := nextTimeLoop_sound cfg p hwf fuel _ st' hidx2 h
    exact ⟨hr.2.2.1, hr.2.1⟩

theorem initCursor_idx (p : ParsedRule) (now : Instant) (hwf : WFRule p) :
    IdxOK p (initCursor p now) := by
  obtain ⟨⟨sne, _, _⟩, ⟨mne, _, _⟩, ⟨hne, _, _⟩, ⟨dne, _, _⟩, _, ⟨mone, _, _⟩⟩ := hwf
  have L0 : 0 < p.seconds.length := List.length_pos.mpr sne
  have L1 : 0 < p.minutes.length := List.length_pos.mpr mne
  have L2 : 0 < p.hours.length := List.length_pos.mpr hne
  have L3 : 0 < p.days.length := List.length_pos.mpr dne
  have L5 : 0 < p.months.length := List.length_pos.mpr mone
  have I0 := inSliceByRun_lt now.second p.seconds sne
  have I1 := inSliceByRun_lt now.minute p.minutes mne
  have I2 := inSliceByRun_lt now.hour p.hours hne
  have I3 := inSliceByRun_lt now.day p.days dne
  have I5 := inSliceByRun_lt now.month p.months mone
  simp only [initCursor]
  apply idxok_ite
  · exact ⟨L0, L1, L2, L3, L5⟩
  · exact ⟨ite_lt L0 (ite_lt L0 (ite_lt L0 (ite_lt L0 I0))),
      ite_lt L1 (ite_lt L1 (ite_lt L1 (ite_lt (mod_bump_lt _ _ L1) I1))),
      ite_lt L2 (ite_lt L2 (ite_lt (mod_bump_lt _ _ L2) I2)),
      ite_lt L3 (ite_lt (mod_bump_lt _ _ L3) I3),
      ite_lt (mod_bump_lt _ _ L5) I5⟩

theorem initE_ok (cfg : Cfg) (p : ParsedRule) (now : Instant) (fuel : Nat) (st : St)
    (hwf : WFRule p) (h : initE cfg p now fuel = .ok st) :
    isTrueNextTime cfg p st = .ok true ∧ IdxOK p st := by
  have hic := initCursor_idx p now hwf
  simp only [initE] at h
  split at h
  · exact absurd h (by simp)
  · rename_i htrue
    injection h with h2
    subst h2
    exact ⟨htrue, hic⟩
  · exact nextTimeE_ok cfg p fuel _ st hwf hic h

theorem isTrue_unbounded (cfg : Cfg) (p : ParsedRule) (st : St)
    (hml : cfg.maxYearLen = -1) :
    isTrueNextTime cfg p st ≠ .error .noFeasibleOccurrence := by
  simp only [isTrueNextTime]
  rw [if_neg (by intro hc; exact hc.1 hml)]
  split
  · simp
  · split <;> simp

theorem isTrue_error_eq (cfg : Cfg) (p : ParsedRule) (st : St) (e : CronError)
    (h : isTrueNextTime cfg p st = .error e) : e = .noFeasibleOccurrence := by
  simp only [isTrueNextTime] at h
  split at h
  · injection h with h1
    exact h1.symm
  · split at h
    · simp at h
    · split at h <;> simp at h

theorem nextTimeLoop_unbounded (cfg : Cfg) (p : ParsedRule)
    (hml : cfg.maxYearLen = -1) :
    ∀ (fuel : Nat) (st : St),
      nextTimeLoop cfg p fuel st ≠ .error .noFeasibleOccurrence := by
  intro fuel
  induction fuel with
  | zero => intro st h; simp [nextTimeLoop] at h
  | succ n ih =>
    intro st h
    simp only [nextTimeLoop] at h
    split at h
    · rename_i heq
      injection h with h1
      rw [h1] at heq
      exact isTrue_unbounded cfg p _ hml heq
    · simp at h
    · exact ih _ h

theorem nextTimeLoop_error_eq (cfg : Cfg) (p : ParsedRule) :
    ∀ (fuel : Nat) (st : St) (e : CronError),
      nextTimeLoop cfg p fuel st = .error e →
      e = .noFeasibleOccurrence ∨ e = .fuelExhausted := by
  intro fuel
  induction fuel with
  | zero =>
    intro st e h
    simp only [nextTimeLoop] at h
    injection h with h1
    exact Or.inr h1.symm
  | succ n ih =>
    intro st e h
    simp only [nextTimeLoop] at h
    split at h
    · rename_i heq
      injection h with h1
      rw [h1] at heq
      exact Or.inl (isTrue_error_eq cfg p _ e heq)
    · simp at h
    · exact ih _ e h

theorem nextTimeE_unbounded (cfg : Cfg) (p : ParsedRule) (hml : cfg.maxYearLen = -1)
    (fuel : Nat) (st : St) :
    nextTimeE cfg p fuel st ≠ .error .noFeasibleOccurrence := by
  intro h
  simp only [nextTimeE] at h
  split at h
  · rename_i heq
    injection h with h1
    rw [h1] at heq
    exact isTrue_unbounded cfg p _ hml heq
  · simp at h
  · exact nextTimeLoop_unbounded cfg p hml fuel _ h

theorem nextTimeE_error_eq (cfg : Cfg) (p : ParsedRule) (fuel : Nat) (st : St)
    (e : CronError) (h : nextTimeE cfg p fuel st = .error e) :
    e = .noFeasibleOccurrence ∨ e = .fuelExhausted := by
  simp only [nextTimeE] at h
  split at h
  · rename_i heq
    injection h with h1
    rw [h1] at heq
    exact Or.inl (isTrue_error_eq cfg p _ e heq)
  · simp at h
  · exact nextTimeLoop_error_eq cfg p fuel _ e h

/-! Claim theorems. -/

/-- C3: for every rule with well-formed field sets and every valid cursor state
(the only states the engine rests at), one call to the advance operation
`nextTime` yields a cursor whose materialized instant is strictly greater than
the instant materialized before the call; hence successive advances produce a
strictly increasing sequence of instants. -/
theorem c3_advance_strictly_increases (cfg : Cfg) (p : ParsedRule) (st st' : St)
    (fuel : Nat) (hwf : WFRule p) (hidx : IdxOK p st)
    (hcur : isTrueNextTime cfg p st = .ok true)
    (hrun : nextTimeE cfg p fuel st = .ok st') :
    instantKey (matInstant p st) < instantKey (matInstant p st') := by
  obtain ⟨htrue', hidx'⟩ := nextTimeE_ok cfg p fuel st st' hwf hidx hrun
  rw [instantKey_mat cfg p st hcur, instantKey_mat cfg p st' htrue']
  obtain ⟨hcase, hidx1⟩ := step1_cases p st hwf hidx
  obtain ⟨f0, f1⟩ := fineKey_bounds p st hwf hidx
  obtain ⟨f0', f1'⟩ := fineKey_bounds p st' hwf hidx'
  obtain ⟨h0, h1, h2, h3, h5⟩ := hidx
  simp only [nextTimeE] at hrun
  split at hrun
  · exact absurd hrun (by simp)
  · rw [Except.ok.injEq] at hrun
    subst hrun
    rcases hcase with ⟨hy, hi3, hi5, hfine⟩ | hcoarse
    · have hc : coarseKey p (step1 p st) = coarseKey p st := by
        simp only [coarseKey, hy, hi3, hi5]
      simp only [stKey]
      omega
    · simp only [stKey]
      omega
  · rename_i hfalse1
    rcases hcase with ⟨hy, hi3, hi5, hfine⟩ | hcoarse
    · exfalso
      have hcg := isTrue_congr cfg p (step1 p st) st hy hi3 hi5
      rw [hfalse1, hcur] at hcg
      exact absurd hcg (by simp)
    · have hidxB : IdxOK p { step1 p st with i0 := 0, i1 := 0, i2 := 0 } :=
        ⟨by show 0 < p.seconds.length; omega, by show 0 < p.minutes.length; omega,
          by show 0 < p.hours.length; omega, hidx1.2.2.2.1, hidx1.2.2.2.2⟩
      have hloop := nextTimeLoop_sound cfg p hwf fuel _ st' hidxB hrun
      have hcc : coarseKey p (step1 p st) < coarseKey p st' := hloop.1
      simp only [stKey]
      omega

/-- C3 witness: advancing the daily-midnight rule from 2024-01-01 00:00:00
yields 2024-01-02 00:00:00, a strictly larger instant. -/
theorem c3_witness :
    instantKey (matInstant pMidnight ⟨2024, 0, 0, 0, 0, 0⟩) <
      instantKey (matInstant pMidnight ⟨2024, 0, 0, 0, 1, 0⟩) :=
  c3_advance_strictly_increases ⟨2024, 1⟩ pMidnight ⟨2024, 0, 0, 0, 0, 0⟩
    ⟨2024, 0, 0, 0, 1, 0⟩ 1 (by decide) (by decide) (by rfl) (by rfl)

/-- C2: every cursor the engine returns — from initialization or from any
advance — materializes to an instant whose second, minute, hour, day-of-month
and month components are members of the corresponding field sets, and whose
derived calendar weekday is a member of the day-of-week set (so a rule whose
day-of-week set is [1] only ever yields Mondays). -/
theorem c2_engine_output_valid (cfg : Cfg) (p : ParsedRule) (st : St)
    (hwf : WFRule p)
    (hret : (∃ now fuel, initE cfg p now fuel = .ok st) ∨
            (∃ st0 fuel, IdxOK p st0 ∧ nextTimeE cfg p fuel st0 = .ok st)) :
    (matInstant p st).second ∈ p.seconds ∧ (matInstant p st).minute ∈ p.minutes ∧
    (matInstant p st).hour ∈ p.hours ∧ (matInstant p st).day ∈ p.days ∧
    (matInstant p st).month ∈ p.months ∧
    weekday (matInstant p st).year (matInstant p st).month (matInstant p st).day ∈
      p.weeks := by
  have hpair : isTrueNextTime cfg p st = .ok true ∧ IdxOK p st := by
    rcases hret with ⟨now, fuel, h⟩ | ⟨st0, fuel, hidx0, h⟩
    · exact initE_ok cfg p now fuel st hwf h
    · exact nextTimeE_ok cfg p fuel st0 st hwf hidx0 h
  obtain ⟨htrue, hidx⟩ := hpair
  obtain ⟨h0, h1, h2, h3, h5⟩ := hidx
  have hmat := mat_eq_of_true cfg p st htrue
  rw [hmat]
  refine ⟨getD_mem _ _ h0, getD_mem _ _ h1, getD_mem _ _ h2, getD_mem _ _ h3,
    getD_mem _ _ h5, ?_⟩
  exact (isTrue_ok_parts cfg p st htrue).2

/-- C2 witness: initializing rule "0 0 0 * 1 *" (weeks set [1]) at Monday
2024-01-01 00:00:00 returns an instant whose weekday is in [1], i.e. a
Monday. -/
theorem c2_witness :
    weekday (matInstant pMonday ⟨2024, 0, 0, 0, 0, 0⟩).year
      (matInstant pMonday ⟨2024, 0, 0, 0, 0, 0⟩).month
      (matInstant pMonday ⟨2024, 0, 0, 0, 0, 0⟩).day ∈ pMonday.weeks :=
  (c2_engine_output_valid ⟨2024, 1⟩ pMonday ⟨2024, 0, 0, 0, 0, 0⟩ (by decide)
    (Or.inl ⟨⟨2024, 1, 1, 0, 0, 0⟩, 0, by rfl⟩)).2.2.2.2.2

/-- C9: candidate validation detects calendar normalization.  An accepted
cursor's composed (year, month, day) is unchanged by `time.Date`'s
normalization — in particular the selected day fits its month, and the
materialized instant's year, month and day equal the cursor's selections — and
a cursor whose selected day overflows the selected month (e.g. Feb 30, which
normalizes to Mar 2) is never accepted. -/
theorem c9_normalization_detected (cfg : Cfg) (p : ParsedRule) (st : St) :
    (isTrueNextTime cfg p st = .ok true →
      normDate st.year (p.months.getD st.i5 0) (p.days.getD st.i3 0) =
        (st.year, p.months.getD st.i5 0, p.days.getD st.i3 0) ∧
      p.days.getD st.i3 0 ≤ daysInMonth st.year (p.months.getD st.i5 0) ∧
      (matInstant p st).year = st.year ∧
      (matInstant p st).month = p.months.getD st.i5 0 ∧
      (matInstant p st).day = p.days.getD st.i3 0) ∧
    (daysInMonth st.year (p.months.getD st.i5 0) < p.days.getD st.i3 0 →
      isTrueNextTime cfg p st ≠ .ok true) := by
  constructor
  · intro h
    have hn := (isTrue_ok_parts cfg p st h).1
    have hd : p.days.getD st.i3 0 ≤ daysInMonth st.year (p.months.getD st.i5 0) := by
      by_contra hc
      exact normDate_ne_of_overflow _ _ _ (by omega) hn
    rw [mat_eq_of_true cfg p st h]
    exact ⟨hn, hd, rfl, rfl, rfl⟩
  · intro hover h
    exact normDate_ne_of_overflow _ _ _ hover (isTrue_ok_parts cfg p st h).1

/-- C9 witness: a cursor selecting Feb 30 2023 (which `time.Date` normalizes
to Mar 2) is rejected by candidate validation. -/
theorem c9_witness :
    isTrueNextTime ⟨2023, 1⟩ pFeb30 ⟨2023, 0, 0, 0, 0, 0⟩ ≠ .ok true :=
  (c9_normalization_detected ⟨2023, 1⟩ pFeb30 ⟨2023, 0, 0, 0, 0, 0⟩).2 (by decide)

/-- C7: (i) with a horizon ≠ -1, any candidate whose composed year reaches
nowYear + 1 + horizon makes validation fail with NoFeasibleOccurrence;
(ii) with horizon -1 neither validation nor the advance search can fail with
NoFeasibleOccurrence (the search year is unbounded); (iii) with horizon 0 and
reference instant Dec 31 23:59:59, the rule "0 0 0 1 * 1" (which next fires
January 1 of the following year) fails initialization with
NoFeasibleOccurrence. -/
theorem c7_horizon_guard :
    (∀ (cfg : Cfg) (p : ParsedRule) (st : St), cfg.maxYearLen ≠ -1 →
      cfg.nowYear + 1 + cfg.maxYearLen ≤
          (normDate st.year (p.months.getD st.i5 0) (p.days.getD st.i3 0)).1 →
      isTrueNextTime cfg p st = .error .noFeasibleOccurrence) ∧
    (∀ (cfg : Cfg) (p : ParsedRule) (st : St), cfg.maxYearLen = -1 →
      isTrueNextTime cfg p st ≠ .error .noFeasibleOccurrence) ∧
    (∀ (cfg : Cfg) (p : ParsedRule) (fuel : Nat) (st : St), cfg.maxYearLen = -1 →
      nextTimeE cfg p fuel st ≠ .error .noFeasibleOccurrence) ∧
    (parseRules "0 0 0 1 * 1" = .ok pJanFirst ∧
      initE ⟨2024, 0⟩ pJanFirst ⟨2024, 12, 31, 23, 59, 59⟩ 0 =
        .error .noFeasibleOccurrence) := by
  refine ⟨?_, ?_, ?_, by rfl, by rfl⟩
  · intro cfg p st h1 h2
    simp only [isTrueNextTime]
    rw [if_pos ⟨h1, h2⟩]
  · intro cfg p st hml
    exact isTrue_unbounded cfg p st hml
  · intro cfg p fuel st hml
    exact nextTimeE_unbounded cfg p hml fuel st

/-- C7 witness: with horizon 0 and real year 2024, a candidate in year 2025 is
rejected by the guard with NoFeasibleOccurrence. -/
theorem c7_witness :
    isTrueNextTime ⟨2024, 0⟩ pJanFirst ⟨2025, 0, 0, 0, 0, 0⟩ =
      .error .noFeasibleOccurrence :=
  c7_horizon_guard.1 ⟨2024, 0⟩ pJanFirst ⟨2025, 0, 0, 0, 0, 0⟩ (by decide) (by decide)

/-- C1 (refuting evidence): initializing the parse of "30 10,50 * * * *" at
reference instant 2024-01-01 10:20:45 yields 2024-01-01 11:10:30, although
2024-01-01 10:50:30 satisfies all six field constraints, is not earlier than
the reference instant and is strictly earlier than the returned instant.  When
the second search carries, `init` advances the minute index even though the
minute found was already past the reference minute, skipping a legal
occurrence, so initialization does not return the earliest legal instant at or
after the reference. -/
theorem c1_init_not_minimal :
    parseRules "30 10,50 * * * *" = .ok pThirty ∧
    initE ⟨2024, 1⟩ pThirty ⟨2024, 1, 1, 10, 20, 45⟩ 0 = .ok ⟨2024, 0, 0, 11, 0, 0⟩ ∧
    matInstant pThirty ⟨2024, 0, 0, 11, 0, 0⟩ = ⟨2024, 1, 1, 11, 10, 30⟩ ∧
    LegalInstant pThirty ⟨2024, 1, 1, 10, 50, 30⟩ ∧
    instantKey ⟨2024, 1, 1, 10, 20, 45⟩ ≤ instantKey ⟨2024, 1, 1, 10, 50, 30⟩ ∧
    instantKey ⟨2024, 1, 1, 10, 50, 30⟩ < instantKey ⟨2024, 1, 1, 11, 10, 30⟩ := by
  exact ⟨by rfl, by rfl, by rfl, by decide, by decide, by decide⟩

/-- C5 counterexample: step 32 on the day field exceeds max − min + 1 = 31, so
the claim mandates InvalidStep, yet `validNum` accepts it (its bound is
max + 1 = 32) and the whole rule "0 0 0 */32 * *" parses successfully. -/
theorem c5_counterexample :
    validNum 32 .day true = .ok () ∧
    ¬ ((32 : Int) ≤ (getMaxBetween .day).2 - (getMaxBetween .day).1 + 1) ∧
    parseRules "0 0 0 */32 * *" = .ok ⟨[0], [0], [0], [1], weeksAll, monthsAll⟩ := by
  exact ⟨by rfl, by decide, by rfl⟩

/-- C5 amended: a step atom's step S is rejected with InvalidStep exactly when
S < 1 or S > max + 1, where max is the field's domain maximum — this equals
max − min + 1 for the 0-based fields but is one larger for day-of-month and
month, whose domains start at 1. -/
theorem c5_step_bound (ct : cType) (n : Int) :
    validNum n ct true = .error .invalidStep ↔
      (n < 1 ∨ n > (getMaxBetween ct).2 + 1) :=
  validNum_interval_err_iff n ct

/-- C5 witness: step 33 on the day field is rejected with InvalidStep. -/
theorem c5_witness : validNum 33 .day true = .error .invalidStep :=
  (c5_step_bound .day 33).mpr (by decide)

theorem month_host_iff (m dmax : Nat) (hm1 : 1 ≤ m) (hm2 : m ≤ 12) (hdm : dmax ≤ 31) :
    ((if m = 1 ∨ m = 3 ∨ m = 5 ∨ m = 7 ∨ m = 8 ∨ m = 10 ∨ m = 12 then true
      else if m = 2 then decide (dmax ≤ 29) else decide (dmax ≤ 30)) = true) ↔
      canHost m dmax := by
  interval_cases m <;> simp [canHost] <;> omega

theorem sorted_getD_le_last (l : List Nat) (hs : SortedLt l) :
    ∀ v ∈ l, v ≤ l.getD (l.length - 1) 0 := by
  intro v hv
  obtain ⟨⟨i, hi⟩, rfl⟩ := List.mem_iff_get.mp hv
  have hgd : l.get ⟨i, hi⟩ = l.getD i 0 := by
    simp [List.getD, List.getElem?_eq_getElem hi, List.get_eq_getElem]
  rw [hgd]
  rcases Nat.lt_or_ge i (l.length - 1) with hlt | hge
  · exact le_of_lt (sorted_getD_lt l hs i (l.length - 1) hlt (by omega))
  · have hieq : i = l.length - 1 := by omega
    rw [hieq]

/-- C4: the month/day feasibility check rejects with UnsatisfiableRule exactly
when no month of the Month set can host the maximum requested day-of-month
(February up to 29 with slack, April/June/September/November up to 30, the
other months up to 31); the rule "0 0 0 31 * 2" parses and is then rejected by
that check; and the advance operation never runs the check — it can never
produce UnsatisfiableRule. -/
theorem c4_feasibility :
    (∀ p : ParsedRule, p.days ≠ [] → SortedLt p.days →
       (∀ v ∈ p.days, 1 ≤ v ∧ v ≤ 31) → (∀ v ∈ p.months, 1 ≤ v ∧ v ≤ 12) →
       ((validMonthDay p = .error .unsatisfiableRule ↔
          ∀ m ∈ p.months, ¬ canHost m (p.days.getD (p.days.length - 1) 0)) ∧
        ∀ v ∈ p.days, v ≤ p.days.getD (p.days.length - 1) 0)) ∧
    (parseRules "0 0 0 31 * 2" = .ok pFeb31 ∧
      validMonthDay pFeb31 = .error .unsatisfiableRule) ∧
    (∀ (cfg : Cfg) (p : ParsedRule) (fuel : Nat) (st : St),
       nextTimeE cfg p fuel st ≠ .error .unsatisfiableRule) := by
  refine ⟨?_, ⟨by rfl, by rfl⟩, ?_⟩
  · intro p dne dsort dbnd mobnd
    have hlen : 0 < p.days.length := List.length_pos.mpr dne
    have hdm : p.days.getD (p.days.length - 1) 0 ∈ p.days := getD_mem _ _ (by omega)
    have hdmb := (dbnd _ hdm).2
    constructor
    · simp only [validMonthDay]
      split
      · rename_i hex
        simp only [List.any_eq_true] at hex
        obtain ⟨m, hm, hfm⟩ := hex
        have hch := (month_host_iff m _ (mobnd m hm).1 (mobnd m hm).2 hdmb).mp hfm
        constructor
        · intro hfalse
          exact absurd hfalse (by simp)
        · intro hall
          exact absurd hch (hall m hm)
      · rename_i hex
        constructor
        · intro _ m hm hch
          apply hex
          simp only [List.any_eq_true]
          exact ⟨m, hm,
            (month_host_iff m _ (mobnd m hm).1 (mobnd m hm).2 hdmb).mpr hch⟩
        · intro _
          rfl
    · exact sorted_getD_le_last p.days dsort
  · intro cfg p fuel st h
    rcases nextTimeE_error_eq cfg p fuel st _ h with h1 | h1 <;> simp at h1

/-- C4 witness: for the parse of "0 0 0 31 * 2" the characterization applies —
the check fails precisely because February cannot host day 31. -/
theorem c4_witness :
    (validMonthDay pFeb31 = .error .unsatisfiableRule ↔
      ∀ m ∈ pFeb31.months, ¬ canHost m (pFeb31.days.getD (pFeb31.days.length - 1) 0)) ∧
    ∀ v ∈ pFeb31.days, v ≤ pFeb31.days.getD (pFeb31.days.length - 1) 0 :=
  c4_feasibility.1 pFeb31 (by decide) (by decide) (by decide) (by decide)

/-! Lemmas about the scratch-slice marking performed by the parser. -/

theorem length_setTrue (rl : List Bool) (n : Nat) :
    (setTrue rl n).length = rl.length := by
  simp [setTrue]

theorem marks_setTrue (rl : List Bool) (n i : Nat) :
    marks (setTrue rl n) i ↔ marks rl i ∨ (i = n ∧ n < rl.length) := by
  unfold marks setTrue
  induction rl generalizing n i with
  | nil => simp
  | cons b bs ih =>
    cases n with
    | zero =>
      cases i with
      | zero => simp [List.getD]
      | succ j => simp [List.getD]
    | succ nn =>
      cases i with
      | zero => simp [List.getD]
      | succ j =>
        simp only [List.set_cons_succ, List.getD_cons_succ, List.length_cons]
        rw [ih nn j]
        constructor
        · rintro (h | ⟨h1, h2⟩)
          · exact Or.inl h
          · exact Or.inr ⟨by omega, by omega⟩
        · rintro (h | ⟨h1, h2⟩)
          · exact Or.inl h
          · exact Or.inr ⟨by omega, by omega⟩

theorem marks_replicate (k i : Nat) : ¬ marks (List.replicate k false) i := by
  unfold marks
  induction k generalizing i with
  | zero => simp [List.getD]
  | succ kk ih =>
    cases i with
    | zero => simp [List.replicate, List.getD]
    | succ j =>
      simp only [List.replicate, List.getD_cons_succ]
      exact ih j

theorem length_getTimesAux (e iv : Nat) :
    ∀ (fuel s : Nat) (rl : List Bool), (getTimesAux e iv fuel s rl).length = rl.length := by
  intro fuel
  induction fuel with
  | zero => intro s rl; rfl
  | succ n ih =>
    intro s rl
    simp only [getTimesAux]
    split
    · rw [ih]
      exact length_setTrue rl s
    · rfl

theorem length_getTimes (s e iv : Nat) (rl : List Bool) :
    (getTimes s e iv rl).length = rl.length :=
  length_getTimesAux e iv _ s rl

theorem marks_getTimesAux (e iv : Nat) (hiv : 0 < iv) :
    ∀ (fuel s : Nat) (rl : List Bool), e + 1 - s ≤ fuel →
      ∀ i, marks (getTimesAux e iv fuel s rl) i ↔
        marks rl i ∨ (s ≤ i ∧ i ≤ e ∧ (i - s) % iv = 0 ∧ i < rl.length) := by
  intro fuel
  induction fuel with
  | zero =>
    intro s rl hf i
    simp only [getTimesAux]
    constructor
    · exact Or.inl
    · rintro (h | ⟨h1, h2, _, _⟩)
      · exact h
      · omega
  | succ n ih =>
    intro s rl hf i
    simp only [getTimesAux]
    split
    · rename_i hse
      rw [ih (s + iv) (setTrue rl s) (by omega) i, marks_setTrue, length_setTrue]
      constructor
      · rintro ((h | ⟨hi, hn⟩) | ⟨h1, h2, h3, h4⟩)
        · exact Or.inl h
        · subst hi
          exact Or.inr ⟨le_refl _, hse, by simp, hn⟩
        · refine Or.inr ⟨by omega, h2, ?_, h4⟩
          have heq : i - s = (i - (s + iv)) + iv := by omega
          rw [heq, Nat.add_mod_right]
          exact h3
      · rintro (h | ⟨h1, h2, h3, h4⟩)
        · exact Or.inl (Or.inl h)
        · by_cases his : i = s
          · exact Or.inl (Or.inr ⟨his, by omega⟩)
          · have hpos : 0 < i - s := by omega
            have hdvd : iv ∣ (i - s) := Nat.dvd_of_mod_eq_zero h3
            have hge : iv ≤ i - s := Nat.le_of_dvd hpos hdvd
            refine Or.inr ⟨by omega, h2, ?_, h4⟩
            have heq : i - s = (i - (s + iv)) + iv := by omega
            rw [heq, Nat.add_mod_right] at h3
            exact h3
    · rename_i hse
      constructor
      · exact Or.inl
      · rintro (h | ⟨h1, h2, _, _⟩)
        · exact h
        · omega

theorem marks_getTimes (s e iv : Nat) (hiv : 0 < iv) (rl : List Bool) (i : Nat) :
    marks (getTimes s e iv rl) i ↔
      marks rl i ∨ (s ≤ i ∧ i ≤ e ∧ (i - s) % iv = 0 ∧ i < rl.length) :=
  marks_getTimesAux e iv hiv (e + 1 - s) s rl (le_refl _) i

theorem length_applyUpd (u : Upd) (rl : List Bool) :
    (applyUpd u rl).length = rl.length := by
  cases u with
  | rangeU s e iv => exact length_getTimes s e iv rl
  | singleU n => exact length_setTrue rl n

theorem marks_applyUpd (ct : cType) (u : Upd) (rl : List Bool) (hg : GoodUpd ct u)
    (i : Nat) :
    marks (applyUpd u rl) i ↔ marks rl i ∨ (UpdMarks u i ∧ i < rl.length) := by
  cases u with
  | rangeU s e iv =>
    rw [show applyUpd (.rangeU s e iv) rl = getTimes s e iv rl from rfl,
      marks_getTimes s e iv hg.1 rl i]
    simp only [UpdMarks]
    constructor
    · rintro (h | ⟨h1, h2, h3, h4⟩)
      · exact Or.inl h
      · exact Or.inr ⟨⟨h1, h2, h3⟩, h4⟩
    · rintro (h | ⟨⟨h1, h2, h3⟩, h4⟩)
      · exact Or.inl h
      · exact Or.inr ⟨h1, h2, h3, h4⟩
  | singleU n =>
    rw [show applyUpd (.singleU n) rl = setTrue rl n from rfl, marks_setTrue]
    simp only [UpdMarks]
    constructor
    · rintro (h | ⟨h1, h2⟩)
      · exact Or.inl h
      · subst h1
        exact Or.inr ⟨rfl, h2⟩
    · rintro (h | ⟨h1, h2⟩)
      · exact Or.inl h
      · subst h1
        exact Or.inr ⟨rfl, h2⟩

theorem mem_collectTrue (rl : List Bool) (i : Nat) :
    i ∈ collectTrue rl ↔ i < rl.length ∧ marks rl i := by
  simp [collectTrue, List.mem_filter, List.mem_range, marks]

theorem sorted_collectTrue (rl : List Bool) : SortedLt (collectTrue rl) :=
  List.Pairwise.filter _ (List.pairwise_lt_range _)

theorem mx_lt_scratch (ct : cType) : (getMaxBetween ct).2.toNat < scratchSize ct := by
  cases ct <;> decide

theorem mn_nonneg (ct : cType) : 0 ≤ (getMaxBetween ct).1 := by
  cases ct <;> decide

theorem splitListOn_ne_nil (sep : Char) (l : List Char) : splitListOn sep l ≠ [] := by
  cases l with
  | nil => simp [splitListOn]
  | cons c rest =>
    simp only [splitListOn]
    split
    · simp
    · split
      · simp
      · simp

theorem splitStr_ne_nil (sep : Char) (s : String) : splitStr sep s ≠ [] := by
  simp only [splitStr, ne_eq, List.map_eq_nil_iff]
  exact splitListOn_ne_nil sep s.toList

theorem mn_le_mx (ct : cType) : (getMaxBetween ct).1 ≤ (getMaxBetween ct).2 := by
  cases ct <;> decide

theorem atomUpd_good (r : String) (ct : cType) (u : Upd) (h : atomUpd r ct = .ok u) :
    GoodUpd ct u := by
  have hmn0 := mn_nonneg ct
  have hmnmx := mn_le_mx ct
  simp only [atomUpd] at h
  split at h
  · -- the every-interval ("/") branch
    split at h
    · exact absurd h (by simp)
    · split at h
      · exact absurd h (by simp)
      · rename_i interval hpint
        split at h
        · exact absurd h (by simp)
        · rename_i uv hvint
          have hexiv := (validNum_true_ok_iff interval ct).mp hvint
          split at h
          · exact absurd h (by simp)
          · rename_i se1 se2 hse
            split at h
            · exact absurd h (by simp)
            · rename_i hcompare
              rw [Except.ok.injEq] at h
              subst h
              have hbounds : (getMaxBetween ct).1 ≤ se1 ∧ se2 ≤ (getMaxBetween ct).2 := by
                split at hse
                · split at hse
                  · exact absurd hse (by simp)
                  · split at hse
                    · exact absurd hse (by simp)
                    · rename_i start1 hpst
                      split at hse
                      · exact absurd hse (by simp)
                      · rename_i uv2 hvst
                        have hst := (validNum_false_ok_iff start1 ct).mp hvst
                        split at hse
                        · split at hse
                          · exact absurd hse (by simp)
                          · rename_i end1 hpend
                            split at hse
                            · exact absurd hse (by simp)
                            · rename_i uv3 hvend
                              have hend := (validNum_false_ok_iff end1 ct).mp hvend
                              rw [Except.ok.injEq, Prod.mk.injEq] at hse
                              obtain ⟨he1, he2⟩ := hse
                              subst he1
                              subst he2
                              exact ⟨hst.1, hend.2⟩
                        · rw [Except.ok.injEq, Prod.mk.injEq] at hse
                          obtain ⟨he1, he2⟩ := hse
                          subst he1
                          subst he2
                          exact ⟨hst.1, le_refl _⟩
                · rw [Except.ok.injEq] at hse
                  have h1 : (getMaxBetween ct).1 = se1 := by rw [hse]
                  have h2 : (getMaxBetween ct).2 = se2 := by rw [hse]
                  omega
              simp only [not_lt] at hcompare
              exact ⟨by omega, by omega, by omega, by omega⟩
  · -- the between ("-") branch
    split at h
    · split at h
      · exact absurd h (by simp)
      · split at h
        · exact absurd h (by simp)
        · rename_i start1 hpst
          split at h
          · exact absurd h (by simp)
          · rename_i uv hvst
            have hst := (validNum_false_ok_iff start1 ct).mp hvst
            split at h
            · exact absurd h (by simp)
            · rename_i end1 hpend
              split at h
              · exact absurd h (by simp)
              · rename_i uv2 hvend
                have hend := (validNum_false_ok_iff end1 ct).mp hvend
                split at h
                · exact absurd h (by simp)
                · rename_i hcompare
                  rw [Except.ok.injEq] at h
                  subst h
                  simp only [not_lt] at hcompare
                  exact ⟨by omega, by omega, by omega, by omega⟩
    · -- the star and single-value branch
      split at h
      · rw [Except.ok.injEq] at h
        subst h
        exact ⟨by omega, by omega, by omega, by omega⟩
      · split at h
        · exact absurd h (by simp)
        · rename_i charNum hpc
          split at h
          · exact absurd h (by simp)
          · rename_i uv hvc
            have hcb := (validNum_false_ok_iff charNum ct).mp hvc
            rw [Except.ok.injEq] at h
            subst h
            exact ⟨by omega, by omega⟩

theorem parseSingleAux_spec (ct : cType) :
    ∀ (atoms : List String) (rl rl' : List Bool),
      parseSingleAux ct atoms rl = .ok rl' →
      rl'.length = rl.length ∧
      (∀ a ∈ atoms, ∃ u, atomUpd a ct = .ok u) ∧
      (∀ i, marks rl' i ↔ marks rl i ∨
        ∃ a ∈ atoms, ∃ u, atomUpd a ct = .ok u ∧ UpdMarks u i ∧ i < rl.length) := by
  intro atoms
  induction atoms with
  | nil =>
    intro rl rl' h
    simp only [parseSingleAux] at h
    rw [Except.ok.injEq] at h
    subst h
    exact ⟨rfl, by simp, by simp⟩
  | cons a rest ih =>
    intro rl rl' h
    simp only [parseSingleAux] at h
    split at h
    · exact absurd h (by simp)
    · rename_i rl2 heq
      simp only [applyAtom] at heq
      split at heq
      · exact absurd heq (by simp)
      · rename_i u hequ
        rw [Except.ok.injEq] at heq
        subst heq
        obtain ⟨ihlen, ihall, ihmk⟩ := ih (applyUpd u rl) rl' h
        have hgood := atomUpd_good a ct u hequ
        have hlen := length_applyUpd u rl
        refine ⟨by omega, ?_, ?_⟩
        · intro a2 ha2
          rcases List.mem_cons.mp ha2 with h1 | h1
          · exact ⟨u, by rw [h1]; exact hequ⟩
          · exact ihall a2 h1
        · intro i
          rw [ihmk i, marks_applyUpd ct u rl hgood i]
          constructor
          · rintro ((h1 | ⟨h1, h2⟩) | ⟨a2, ha2, u2, hu2, hm2, hlt2⟩)
            · exact Or.inl h1
            · exact Or.inr ⟨a, List.mem_cons_self a rest, u, hequ, h1, h2⟩
            · exact Or.inr ⟨a2, List.mem_cons_of_mem a ha2, u2, hu2, hm2, by omega⟩
          · rintro (h1 | ⟨a2, ha2, u2, hu2, hm2, hlt2⟩)
            · exact Or.inl (Or.inl h1)
            · rcases List.mem_cons.mp ha2 with h2 | h2
              · subst h2
                rw [hequ, Except.ok.injEq] at hu2
                subst hu2
                exact Or.inl (Or.inr ⟨hm2, hlt2⟩)
              · exact Or.inr ⟨a2, h2, u2, hu2, hm2, by omega⟩

theorem parseSingle_invariants (rule : String) (ct : cType) (rs : List Nat)
    (h : parseSingle rule ct (List.replicate (scratchSize ct) false) = .ok rs) :
    rs ≠ [] ∧ SortedLt rs ∧
    (∀ v ∈ rs, (getMaxBetween ct).1 ≤ (v : Int) ∧ (v : Int) ≤ (getMaxBetween ct).2) ∧
    (∀ v : Nat, v ∈ rs ↔ ∃ a ∈ splitStr ',' rule, ∃ rl,
        applyAtom a ct (List.replicate (scratchSize ct) false) = .ok rl ∧ marks rl v) := by
  simp only [parseSingle] at h
  split at h
  · exact absurd h (by simp)
  · rename_i rlf heq
    rw [Except.ok.injEq] at h
    subst h
    obtain ⟨hlen, hall, hmk⟩ := parseSingleAux_spec ct (splitStr ',' rule) _ rlf heq
    have hinitlen : (List.replicate (scratchSize ct) false).length = scratchSize ct := by
      simp
    have hmem : ∀ v : Nat, v ∈ collectTrue rlf ↔
        ∃ a ∈ splitStr ',' rule, ∃ u, atomUpd a ct = .ok u ∧ UpdMarks u v ∧
          v < scratchSize ct := by
      intro v
      rw [mem_collectTrue, hmk v]
      constructor
      · rintro ⟨hv1, hv2 | ⟨a, ha, u, hu, hum, hlt⟩⟩
        · exact absurd hv2 (marks_replicate _ _)
        · exact ⟨a, ha, u, hu, hum, by omega⟩
      · rintro ⟨a, ha, u, hu, hum, hlt⟩
        exact ⟨by omega, Or.inr ⟨a, ha, u, hu, hum, by omega⟩⟩
    refine ⟨?_, sorted_collectTrue rlf, ?_, ?_⟩
    · obtain ⟨a, ha⟩ := List.exists_mem_of_ne_nil _ (splitStr_ne_nil ',' rule)
      obtain ⟨u, hu⟩ := hall a ha
      have hgood := atomUpd_good a ct u hu
      have hscr := mx_lt_scratch ct
      have hw : ∃ w, UpdMarks u w ∧ w < scratchSize ct := by
        cases u with
        | rangeU s e iv =>
          obtain ⟨hiv, hle, hlo, hhi⟩ := hgood
          exact ⟨s, ⟨le_refl _, hle, by simp⟩, by omega⟩
        | singleU n =>
          obtain ⟨hlo, hhi⟩ := hgood
          exact ⟨n, rfl, by omega⟩
      obtain ⟨w, hw1, hw2⟩ := hw
      exact List.ne_nil_of_mem ((hmem w).mpr ⟨a, ha, u, hu, hw1, hw2⟩)
    · intro v hv
      obtain ⟨a, ha, u, hu, hum, hlt⟩ := (hmem v).mp hv
      have hgood := atomUpd_good a ct u hu
      have hm0 := mn_nonneg ct
      have hmx0 : 0 ≤ (getMaxBetween ct).2 := le_trans (mn_nonneg ct) (mn_le_mx ct)
      cases u with
      | rangeU s e iv =>
        obtain ⟨hiv, hle, hlo, hhi⟩ := hgood
        obtain ⟨hv1, hv2, _⟩ := hum
        constructor <;> omega
      | singleU n =>
        obtain ⟨hlo, hhi⟩ := hgood
        have hvn : v = n := hum
        constructor <;> omega
    · intro v
      rw [hmem v]
      constructor
      · rintro ⟨a, ha, u, hu, hum, hlt⟩
        refine ⟨a, ha, applyUpd u (List.replicate (scratchSize ct) false), ?_, ?_⟩
        · simp [applyAtom, hu]
        · rw [marks_applyUpd ct u _ (atomUpd_good a ct u hu) v]
          exact Or.inr ⟨hum, by rw [hinitlen]; exact hlt⟩
      · rintro ⟨a, ha, rl, hok, hmrk⟩
        simp only [applyAtom] at hok
        split at hok
        · exact absurd hok (by simp)
        · rename_i u hu
          rw [Except.ok.injEq] at hok
          subst hok
          rw [marks_applyUpd ct u _ (atomUpd_good a ct u hu) v] at hmrk
          rcases hmrk with h1 | ⟨h1, h2⟩
          · exact absurd h1 (marks_replicate _ _)
          · rw [hinitlen] at h2
            exact ⟨a, ha, u, hu, h1, h2⟩

/-- C8: every field slice the parser accepts is non-empty, strictly increasing
(hence duplicate-free), lies within the field's domain bounds, and equals the
union of the value sets contributed by the token's comma-separated atoms. -/
theorem c8_fieldset_invariants (rule : String) (ct : cType) (rs : List Nat)
    (h : parseSingle rule ct (List.replicate (scratchSize ct) false) = .ok rs) :
    rs ≠ [] ∧ SortedLt rs ∧
    (∀ v ∈ rs, (getMaxBetween ct).1 ≤ (v : Int) ∧ (v : Int) ≤ (getMaxBetween ct).2) ∧
    (∀ v : Nat, v ∈ rs ↔ ∃ a ∈ splitStr ',' rule, ∃ rl,
        applyAtom a ct (List.replicate (scratchSize ct) false) = .ok rl ∧ marks rl v) :=
  parseSingle_invariants rule ct rs h

/-- C8 witness: the second-field token "1-3,20" parses to the set
[1, 2, 3, 20], which is non-empty, strictly ascending and within [0, 59]. -/
theorem c8_witness :
    parseSingle "1-3,20" .second (List.replicate (scratchSize .second) false) =
        .ok [1, 2, 3, 20] ∧
    ([1, 2, 3, 20] : List Nat) ≠ [] ∧ SortedLt [1, 2, 3, 20] ∧
    (∀ v ∈ ([1, 2, 3, 20] : List Nat),
      (getMaxBetween .second).1 ≤ (v : Int) ∧ (v : Int) ≤ (getMaxBetween .second).2) :=
  have hp : parseSingle "1-3,20" .second (List.replicate (scratchSize .second) false) =
      .ok [1, 2, 3, 20] := by rfl
  have hinv := c8_fieldset_invariants "1-3,20" .second [1, 2, 3, 20] hp
  ⟨hp, hinv.1, hinv.2.1, hinv.2.2.1⟩

theorem parseSingle_field_wf (rule : String) (ct : cType) (rs : List Nat)
    (h : parseSingle rule ct (List.replicate (scratchSize ct) false) = .ok rs) :
    rs ≠ [] ∧ SortedLt rs ∧
    ∀ v ∈ rs, (getMaxBetween ct).1.toNat ≤ v ∧ v ≤ (getMaxBetween ct).2.toNat := by
  obtain ⟨hne, hsort, hbd, _⟩ := parseSingle_invariants rule ct rs h
  refine ⟨hne, hsort, fun v hv => ?_⟩
  have hb := hbd v hv
  have h0 := mn_nonneg ct
  have h1 : 0 ≤ (getMaxBetween ct).2 := le_trans (mn_nonneg ct) (mn_le_mx ct)
  omega

/-- Every rule accepted by `parseRules` has well-formed field slices, so the
`WFRule` hypotheses of the engine theorems hold for every parsed rule. -/
theorem parseRules_wf (s : String) (p : ParsedRule) (h : parseRules s = .ok p) :
    WFRule p := by
  simp only [parseRules] at h
  split at h
  · exact absurd h (by simp)
  · split at h
    · exact absurd h (by simp)
    · rename_i seconds hsec
      split at h
      · exact absurd h (by simp)
      · rename_i minutes hmin
        split at h
        · exact absurd h (by simp)
        · rename_i hours hhour
          split at h
          · exact absurd h (by simp)
          · rename_i days hday
            split at h
            · exact absurd h (by simp)
            · rename_i weeks hweek
              split at h
              · exact absurd h (by simp)
              · rename_i months hmon
                rw [Except.ok.injEq] at h
                subst h
                obtain ⟨sne, ssort, sbd⟩ := parseSingle_field_wf _ _ _ hsec
                obtain ⟨mne, msort, mbd⟩ := parseSingle_field_wf _ _ _ hmin
                obtain ⟨hne2, hsort2, hbd2⟩ := parseSingle_field_wf _ _ _ hhour
                obtain ⟨dne, dsort, dbd⟩ := parseSingle_field_wf _ _ _ hday
                obtain ⟨wne, wsort, wbd⟩ := parseSingle_field_wf _ _ _ hweek
                obtain ⟨mone, mosort, mobd⟩ := parseSingle_field_wf _ _ _ hmon
                have sbd2 : ∀ v ∈ seconds, 0 ≤ v ∧ v ≤ 59 := sbd
                have mbd2 : ∀ v ∈ minutes, 0 ≤ v ∧ v ≤ 59 := mbd
                have hbd3 : ∀ v ∈ hours, 0 ≤ v ∧ v ≤ 23 := hbd2
                have dbd2 : ∀ v ∈ days, 1 ≤ v ∧ v ≤ 31 := dbd
                have wbd2 : ∀ v ∈ weeks, 0 ≤ v ∧ v ≤ 6 := wbd
                have mobd2 : ∀ v ∈ months, 1 ≤ v ∧ v ≤ 12 := mobd
                exact ⟨⟨sne, ssort, fun v hv => (sbd2 v hv).2⟩,
                  ⟨mne, msort, fun v hv => (mbd2 v hv).2⟩,
                  ⟨hne2, hsort2, fun v hv => (hbd3 v hv).2⟩,
                  ⟨dne, dsort, fun v hv => dbd2 v hv⟩,
                  ⟨wne, wsort, fun v hv => (wbd2 v hv).2⟩,
                  ⟨mone, mosort, fun v hv => mobd2 v hv⟩⟩

theorem parseIntM_ne_star (s : String) (n : Int) (h : parseIntM s = .ok n) : s ≠ "*" := by
  intro hc
  have heq : parseIntM "*" = Except.error CronError.notInt := rfl
  rw [hc, heq] at h
  exact absurd h (by simp)

theorem parseSingle_single_atom (rule : String) (ct : cType) (rl : List Bool)
    (hc : splitStr ',' rule = [rule]) :
    parseSingle rule ct rl =
      match atomUpd rule ct with
      | .error e => .error e
      | .ok u => .ok (collectTrue (applyUpd u rl)) := by
  cases hat : atomUpd rule ct with
  | error e => simp [parseSingle, hc, parseSingleAux, applyAtom, hat]
  | ok u => simp [parseSingle, hc, parseSingleAux, applyAtom, hat]

/-- C10: a token of the shape N/S — a single in-domain start value with a
step, a shape absent from the specification's grammar — is accepted and is
treated as the inclusive range from N to the field's domain maximum stepped by
S; in particular the day-of-month token "5/7" yields the set {5, 12, 19, 26}. -/
theorem c10_single_start_step :
    (∀ (r a b : String) (ct : cType) (N S : Int),
      splitStr ',' r = [r] → splitStr '/' r = [a, b] → splitStr '-' a = [a] →
      parseIntM a = .ok N → parseIntM b = .ok S →
      (getMaxBetween ct).1 ≤ N → N ≤ (getMaxBetween ct).2 →
      1 ≤ S → S ≤ (getMaxBetween ct).2 + 1 →
      ∃ rs, parseSingle r ct (List.replicate (scratchSize ct) false) = .ok rs ∧
        ∀ v : Nat, v ∈ rs ↔
          (N.toNat ≤ v ∧ v ≤ (getMaxBetween ct).2.toNat ∧
            (v - N.toNat) % S.toNat = 0)) ∧
    parseSingle "5/7" .day (List.replicate (scratchSize .day) false) =
      .ok [5, 12, 19, 26] := by
  constructor
  · intro r a b ct N S hc hs hd hA hB hN1 hN2 hS1 hS2
    have hastar : a ≠ "*" := parseIntM_ne_star a N hA
    have hvS : validNum S ct true = .ok () := (validNum_true_ok_iff S ct).mpr ⟨hS1, hS2⟩
    have hvN : validNum N ct false = .ok () := (validNum_false_ok_iff N ct).mpr ⟨hN1, hN2⟩
    have hgt : ¬ N > (getMaxBetween ct).2 := by omega
    have hatom : atomUpd r ct =
        .ok (.rangeU N.toNat (getMaxBetween ct).2.toNat S.toNat) := by
      simp [atomUpd, hs, hd, hA, hB, hvS, hvN, hastar, hgt]
    have hps := parseSingle_single_atom r ct (List.replicate (scratchSize ct) false) hc
    rw [hatom] at hps
    refine ⟨_, hps, ?_⟩
    intro v
    have hgood := atomUpd_good r ct _ hatom
    rw [mem_collectTrue, marks_applyUpd ct _ _ hgood v]
    have hrep := marks_replicate (scratchSize ct) v
    have hscr := mx_lt_scratch ct
    have hinitlen : (List.replicate (scratchSize ct) false).length = scratchSize ct := by
      simp
    constructor
    · rintro ⟨hlt, hmk | ⟨hum, _⟩⟩
      · exact absurd hmk hrep
      · obtain ⟨h1, h2, h3⟩ := hum
        exact ⟨h1, h2, h3⟩
    · rintro ⟨h1, h2, h3⟩
      have hvlt : v < (List.replicate (scratchSize ct) false).length := by
        rw [hinitlen]
        omega
      refine ⟨?_, Or.inr ⟨⟨h1, h2, h3⟩, hvlt⟩⟩
      rw [length_applyUpd, hinitlen]
      omega
  · rfl

/-- C10 witness: the general characterization applied to the day-of-month token
"5/7". -/
theorem c10_witness :
    ∃ rs, parseSingle "5/7" .day (List.replicate (scratchSize .day) false) = .ok rs ∧
      ∀ v : Nat, v ∈ rs ↔
        ((5 : Int).toNat ≤ v ∧ v ≤ (getMaxBetween .day).2.toNat ∧
          (v - (5 : Int).toNat) % (7 : Int).toNat = 0) :=
  c10_single_start_step.1 "5/7" "5" "7" .day 5 7 (by rfl) (by rfl) (by rfl) (by rfl)
    (by rfl) (by decide) (by decide) (by decide) (by decide)

/-- C6: a single-value atom is rejected with ValueOutOfRange exactly when its
value lies outside the field's [min, max] domain; a range atom A-B with
in-domain endpoints is rejected with RangeReversed exactly when A > B; rule
"70 * * * * *" fails with ValueOutOfRange and rule "10-5 * * * * *" fails with
RangeReversed. -/
theorem c6_value_range_checks :
    (∀ (rule : String) (ct : cType) (rl : List Bool) (N : Int),
      splitStr ',' rule = [rule] → splitStr '/' rule = [rule] →
      splitStr '-' rule = [rule] → parseIntM rule = .ok N →
      (parseSingle rule ct rl = .error .valueOutOfRange ↔
        (N < (getMaxBetween ct).1 ∨ N > (getMaxBetween ct).2))) ∧
    (∀ (rule a b : String) (ct : cType) (rl : List Bool) (A B : Int),
      splitStr ',' rule = [rule] → splitStr '/' rule = [rule] →
      splitStr '-' rule = [a, b] →
      parseIntM a = .ok A → parseIntM b = .ok B →
      (getMaxBetween ct).1 ≤ A → A ≤ (getMaxBetween ct).2 →
      (getMaxBetween ct).1 ≤ B → B ≤ (getMaxBetween ct).2 →
      (parseSingle rule ct rl = .error .rangeReversed ↔ A > B)) ∧
    parseRules "70 * * * * *" = .error .valueOutOfRange ∧
    parseRules "10-5 * * * * *" = .error .rangeReversed := by
  refine ⟨?_, ?_, by rfl, by rfl⟩
  · intro rule ct rl N hc hs hd hN
    have hastar : rule ≠ "*" := parseIntM_ne_star rule N hN
    have hat : atomUpd rule ct =
        (match validNum N ct false with
         | .error e => .error e
         | .ok _ => .ok (.singleU N.toNat)) := by
      simp [atomUpd, hs, hd, hN, hastar]
    rw [parseSingle_single_atom rule ct rl hc, hat]
    by_cases hdom : N < (getMaxBetween ct).1 ∨ N > (getMaxBetween ct).2
    · rw [(validNum_value_err_iff N ct).mpr hdom]
      simp [hdom]
    · have hok : validNum N ct false = .ok () :=
        (validNum_false_ok_iff N ct).mpr (by omega)
      rw [hok]
      simp [hdom]
  · intro rule a b ct rl A B hc hs hd hA hB hA1 hA2 hB1 hB2
    have hvA : validNum A ct false = .ok () := (validNum_false_ok_iff A ct).mpr ⟨hA1, hA2⟩
    have hvB : validNum B ct false = .ok () := (validNum_false_ok_iff B ct).mpr ⟨hB1, hB2⟩
    have hat : atomUpd rule ct =
        (if A > B then .error .rangeReversed else .ok (.rangeU A.toNat B.toNat 1)) := by
      simp [atomUpd, hs, hd, hA, hB, hvA, hvB]
    rw [parseSingle_single_atom rule ct rl hc, hat]
    by_cases hAB : A > B
    · rw [if_pos hAB]
      simp [hAB]
    · rw [if_neg hAB]
      simp [hAB]

/-- C6 witness: the second-field token "70" fails with ValueOutOfRange and the
second-field token "10-5" fails with RangeReversed. -/
theorem c6_witness :
    parseSingle "70" .second (List.replicate (scratchSize .second) false) =
        .error .valueOutOfRange ∧
    parseSingle "10-5" .second (List.replicate (scratchSize .second) false) =
        .error .rangeReversed :=
  ⟨(c6_value_range_checks.1 "70" .second (List.replicate (scratchSize .second) false) 70
      (by rfl) (by rfl) (by rfl) (by rfl)).mpr (by decide),
   (c6_value_range_checks.2.1 "10-5" "10" "5" .second
      (List.replicate (scratchSize .second) false) 10 5 (by rfl) (by rfl) (by rfl)
      (by rfl) (by rfl) (by decide) (by decide) (by decide) (by decide)).mpr (by decide)⟩

end Crontab
